import Mathlib

/-!
Verification development for the ScrapC scraper (files `main_cli.py` and
`main_cli_optimized.py`).

Shallow embedding conventions:
* The rendered page (ContentSource) is external: it is modelled by
  environments that supply, for each observation point, the materialized
  item count, and for each attempt, whether each strategy's control is
  present/enabled/visible, and whether the branch body raises.
* An extraction of one DOM item is modelled as an `Except Unit Record`
  value: `Except.error` stands for a per-record exception (the code's
  bare `except: continue`).
* Python truthiness of an optional string (`if url:`) is `pyTruthy`.
* Machine integers do not overflow here (Python ints); counts are `Nat`.
-/

/-- A product record as built in `extract_page_products` (both files):
the dict with keys name, price, unit_price, ean, nutriscore, promo, url.
Every field is optional exactly as in the source (each extractor returns
`None` on failure). -/
structure Record where
  name : Option String
  price : Option String
  unitPrice : Option String
  ean : Option String
  nutriscore : Option String
  promo : Option String
  url : Option String
deriving DecidableEq, Repr

/-- A record with only a url, all other fields `None`. -/
def mkRecord (url : Option String) : Record :=
  ⟨none, none, none, none, none, none, url⟩

/-- Python truthiness of an optional string: `None` and `""` are falsy. -/
def pyTruthy : Option String → Bool
  | none => false
  | some s => s != ""

/-- Truthiness of a record's url, `pyTruthy` applied to it (`if url:` in the source). -/
def truthyR (r : Record) : Bool := pyTruthy r.url

namespace Scraper

/-!
The traversal loop of `extract_all_products` is textually identical in
`main_cli.py` (lines 60-168) and `main_cli_optimized.py` (lines 67-161)
up to the `start_index` argument passed to `extract_page_products`; this
namespace embeds that shared control flow.
-/

/-- Number of poll iterations executed by `wait_for_increase`: the loop
body runs for poll instants `i` with `i * poll_ms < timeout_ms` (poll `i`
happens at elapsed time `i * poll_ms`, idealizing the count read as
instantaneous), i.e. `⌈timeout_ms / poll_ms⌉` iterations for
`poll_ms > 0`. -/
def numPolls (timeout_ms poll_ms : Nat) : Nat :=
  (timeout_ms + poll_ms - 1) / poll_ms

/-- The polling loop of `wait_for_increase` (main_cli.py lines 80-87):
`counts i` is the materialized count observed at the `i`-th poll; the
fuel is the number of polls remaining before the timeout check fails. -/
def waitLoop (counts : Nat → Nat) (prev_count : Nat) : Nat → Nat → Bool
  | _, 0 => false
  | i, fuel + 1 =>
      if counts i > prev_count then true
      else waitLoop counts prev_count (i + 1) fuel

/-- Function `wait_for_increase(prev_count, timeout_ms, poll_ms)`
(main_cli.py lines 80-87): polls `products_count()` until it strictly
exceeds `prev_count` or the timeout elapses.  The source's defaults are
`timeout_ms = 15000`, `poll_ms = 300`. -/
def wait_for_increase (counts : Nat → Nat) (prev_count timeout_ms poll_ms : Nat) : Bool :=
  waitLoop counts prev_count 0 (numPolls timeout_ms poll_ms)

/-- The scroll loop of strategy 3 (main_cli.py lines 152-160):
`for _ in range(10): scroll; wait 700ms; if count > prev: increased, prev
:= count else break`.  `counts j` is the count observed after the `j`-th
scroll step.  Returns `(increased, prev, steps executed)`. -/
def scrollGo (counts : Nat → Nat) : Nat → Nat → Nat → Bool → Bool × Nat × Nat
  | 0, i, prev, increased => (increased, prev, i)
  | fuel + 1, i, prev, increased =>
      if counts i > prev then scrollGo counts fuel (i + 1) (counts i) true
      else (increased, prev, i + 1)

/-- Environment of one strategy branch inside one attempt:
whether the branch body raises an exception (`throws`), whether some
selector in the branch's list matches a control that is present, enabled
and visible (`clickable`), and the counts observed while polling after
the action (`counts`). -/
structure BranchEnv where
  throws : Bool
  clickable : Bool
  counts : Nat → Nat

/-- One click-strategy branch (load-more, main_cli.py lines 100-119, or
next-page, lines 122-147): find the first clickable control, click it,
then `wait_for_increase(prev)`.  Returns `(clicked, progressed)`.  A
raised exception is caught by the surrounding `try/except` and leaves the
branch with no click and no progress. -/
def runBranch (prev : Nat) (b : BranchEnv) : Bool × Bool :=
  if b.throws then (false, false)
  else if b.clickable then (true, wait_for_increase b.counts prev 15000 300)
  else (false, false)

/-- The scroll branch (main_cli.py lines 150-165): up to 10 scroll steps,
stopping at the first step that does not increase the count.  Returns
`(increased, final prev, steps)`.  An exception is caught and treated as
no progress with no step performed observably. -/
def runScroll (prev : Nat) (b : BranchEnv) : Bool × Nat × Nat :=
  if b.throws then (false, prev, 0)
  else scrollGo b.counts 10 0 prev false

/-- The three loading strategies, in the source's priority order. -/
inductive Strategy
  | loadMore
  | nextPage
  | scroll
deriving DecidableEq, Repr

/-- Environment of one iteration of the attempt loop: the count read at
the top of the iteration (`prev = products_count()`) and the three
branch environments. -/
structure AttemptEnv where
  prev : Nat
  loadMore : BranchEnv
  nextPage : BranchEnv
  scroll : BranchEnv

/-- Observable outcome of one iteration of the attempt loop: whether some
strategy made progress (leading to an extraction pass and `continue`),
the strategies whose actions were actually invoked (clicks / scrolls), in
invocation order, and the number of scroll steps performed. -/
structure AttemptOut where
  progressed : Bool
  actions : List Strategy
  scrollSteps : Nat
deriving DecidableEq, Repr

/-- The attempt-body control flow, as a function of the three branch
results `lm = (clicked, progressed)`, `np = (clicked, progressed)` and
`sc = (increased, prev, steps)`: a clicked branch whose wait succeeded
extracts and continues; otherwise control falls through to the next
branch; the scroll fallback runs last.  (In the source a later branch's
DOM queries do not run once an earlier one continues; the branches are
pure data here, so evaluating their results eagerly is equivalent.) -/
def attemptOf (lm np : Bool × Bool) (sc : Bool × Nat × Nat) : AttemptOut :=
  if lm.1 && lm.2 then ⟨true, [Strategy.loadMore], 0⟩
  else
    let a1 : List Strategy := if lm.1 then [Strategy.loadMore] else []
    if np.1 && np.2 then ⟨true, a1 ++ [Strategy.nextPage], 0⟩
    else
      let a2 : List Strategy := a1 ++ (if np.1 then [Strategy.nextPage] else [])
      ⟨sc.1, a2 ++ (if sc.2.2 > 0 then [Strategy.scroll] else []), sc.2.2⟩

/-- One iteration of the `while attempts < max_attempts` loop body
(main_cli.py lines 97-168): try load-more; if it was clicked and the
count increased, extract and continue.  Otherwise fall through to
next-page, then to the scroll fallback; if none made progress, the loop
breaks. -/
def runAttempt (env : AttemptEnv) : AttemptOut :=
  attemptOf (runBranch env.prev env.loadMore) (runBranch env.prev env.nextPage)
    (runScroll env.prev env.scroll)

/-- Result of a traversal: the final value of the `attempts` counter, the
number of calls to `extract_page_products` (the pass before the loop plus
one per progressed attempt), and the per-iteration outcomes. -/
structure TraversalResult where
  attempts : Nat
  passes : Nat
  trace : List AttemptOut
deriving DecidableEq, Repr

/-- The `while attempts < max_attempts` loop (main_cli.py lines 93-168).
The fuel equals `max_attempts - attempts`, so `fuel = 0` is exactly the
loop guard `attempts < max_attempts` failing; `attempts += 1` happens at
the top of each iteration, before the strategies run, so a breaking
iteration still counts.  `env k` is the page behaviour during the
iteration with 0-based index `k`. -/
def loopGo (env : Nat → AttemptEnv) : Nat → Nat → Nat → List AttemptOut → TraversalResult
  | 0, attempts, passes, trace => ⟨attempts, passes, trace⟩
  | fuel + 1, attempts, passes, trace =>
      if (runAttempt (env attempts)).progressed then
        loopGo env fuel (attempts + 1) (passes + 1) (trace ++ [runAttempt (env attempts)])
      else ⟨attempts + 1, passes, trace ++ [runAttempt (env attempts)]⟩

/-- Function `extract_all_products` (main_cli.py lines 60-168, and the identical
loop of main_cli_optimized.py lines 67-161): one initial extraction pass,
then the attempt loop with `max_load_attempts` as the budget. -/
def extract_all_products (env : Nat → AttemptEnv) (max_load_attempts : Nat) : TraversalResult :=
  loopGo env max_load_attempts 0 1 []

/-- The navigation step of `run` (main_cli.py lines 27-40): `page.goto`
either raises (propagated out of `run`) or yields a live page, after
which `extract_all_products` runs.  The environment is the page's
behaviour; `Except.error` is a navigation failure. -/
def runScraper (nav : Except Unit (Nat → AttemptEnv)) (max_load_attempts : Nat) :
    Except Unit TraversalResult :=
  match nav with
  | Except.error e => Except.error e
  | Except.ok env => Except.ok (extract_all_products env max_load_attempts)

/-- The strategies in the source's priority order. -/
def strategyOrder : List Strategy := [Strategy.loadMore, Strategy.nextPage, Strategy.scroll]

/-- A branch with no matching control: nothing to click, counts at 0. -/
def noBranch : BranchEnv := ⟨false, false, fun _ => 0⟩

/-- Page behaviour where no strategy is ever available. -/
def envNone : Nat → AttemptEnv := fun _ => ⟨0, noBranch, noBranch, noBranch⟩

/-- A clickable load-more control whose click leaves the count at 10. -/
def c1LoadMore : BranchEnv := ⟨false, true, fun _ => 10⟩

/-- A clickable next-page control whose click raises the count to 20. -/
def c1NextPage : BranchEnv := ⟨false, true, fun _ => 20⟩

/-- A page on which, during the first attempt, the load-more control is
clicked but the count stays at 10 until the wait times out, after which
the next-page control is clicked and the count reaches 20; from the
second attempt on, nothing is available. -/
def c1Env : Nat → AttemptEnv := fun t =>
  if t = 0 then ⟨10, c1LoadMore, c1NextPage, noBranch⟩
  else ⟨20, noBranch, noBranch, noBranch⟩

end Scraper

namespace MainCli

/-- Function `extract_page_products` of main_cli.py (lines 170-189): iterate over
all currently materialized items; a per-record exception is caught by
`except: continue`; a record is appended unless some already collected
record has an equal url (`any(p.get('url') == product_data.get('url'))`,
Python equality, so `None == None` matches). -/
def extract_page_products (products : List Record) : List (Except Unit Record) → List Record
  | [] => products
  | Except.error _ :: items => extract_page_products products items
  | Except.ok r :: items =>
      if products.any (fun p => p.url == r.url) then extract_page_products products items
      else extract_page_products (products ++ [r]) items

/-- The sequence of extraction passes performed by main_cli.py's
controller over a fixed sequence of materialized item snapshots: each
pass re-extracts the whole current snapshot. -/
def origPasses (products : List Record) : List (List (Except Unit Record)) → List Record
  | [] => products
  | s :: ss => origPasses (extract_page_products products s) ss

end MainCli

namespace MainCliOptimized

/-- The per-item loop of `extract_page_products` in main_cli_optimized.py
(lines 168-184): a record is appended, and its url marked seen, only when
its url is truthy (`if url`) and not yet in `seen_urls`. -/
def extractGo (products : List Record) (seen_urls : List String) :
    List (Except Unit Record) → List Record × List String
  | [] => (products, seen_urls)
  | Except.error _ :: items => extractGo products seen_urls items
  | Except.ok r :: items =>
      match r.url with
      | none => extractGo products seen_urls items
      | some u =>
          if u ≠ "" ∧ u ∉ seen_urls then extractGo (products ++ [r]) (u :: seen_urls) items
          else extractGo products seen_urls items

/-- Function `extract_page_products` of main_cli_optimized.py (lines 163-184):
slice the materialized items from `start_index` on (the source guards
`if start_index > 0`, which is the same as an unconditional slice since
`items[0:] = items`), then run the per-item loop. -/
def extract_page_products (products : List Record) (seen_urls : List String)
    (items : List (Except Unit Record)) (start_index : Nat) : List Record × List String :=
  extractGo products seen_urls (items.drop start_index)

/-- The sequence of extraction passes performed by main_cli_optimized.py's
controller over a fixed sequence of snapshots: the first pass starts at
index 0 (line 87), each later pass starts at `prev`, the count read
before the triggering action, i.e. the length of the previous snapshot
(lines 110-113 and 136-139). -/
def optPasses (products : List Record) (seen_urls : List String) (prev : Nat) :
    List (List (Except Unit Record)) → List Record
  | [] => products
  | s :: ss =>
      optPasses (extract_page_products products seen_urls s prev).1
        (extract_page_products products seen_urls s prev).2 s.length ss

/-- Method `run` of main_cli_optimized.py (lines 24-56): with
`single_page_only=True` it calls `extract_page_products(page, 0)` once
and never enters `extract_all_products`, so no loading action runs and
the attempts counter never exists (0 attempts, 1 pass, empty trace);
otherwise the full traversal loop runs. -/
def run (single_page_only : Bool) (env : Nat → Scraper.AttemptEnv) (max_load_attempts : Nat) :
    Scraper.TraversalResult :=
  if single_page_only then ⟨0, 1, []⟩
  else Scraper.extract_all_products env max_load_attempts

/-- The merge loop of `main` (main_cli_optimized.py lines 401-408): for
each product of each shard outcome, in arrival order, keep it iff its url
is truthy and unseen (`if u and u not in seen`).  The `seen` set is
modelled as a list used only through membership. -/
def mergeGo (seen : List String) (all_products : List Record) :
    List Record → List Record × List String
  | [] => (all_products, seen)
  | p :: ps =>
      match p.url with
      | none => mergeGo seen all_products ps
      | some u =>
          if u ≠ "" ∧ u ∉ seen then mergeGo (u :: seen) (all_products ++ [p]) ps
          else mergeGo seen all_products ps

/-- The merge step of `main` (main_cli_optimized.py lines 401-409):
iterate the shard outcomes in arrival order with a fresh `seen` set and
an empty accumulator. -/
def mergeShards (outcomes : List (List Record)) : List Record :=
  (mergeGo [] [] outcomes.flatten).1

/-- A parsed URL as returned by `urlparse`: scheme, netloc, path, params,
fragment, and the query modelled as its `parse_qsl` key-value list
(`keep_blank_values=True`, so blank values are ordinary pairs). -/
structure PyUrl where
  scheme : String
  netloc : String
  path : String
  params : String
  fragment : String
  query : List (String × String)
deriving DecidableEq, Repr

/-- Insertion into a Python dict (insertion-ordered): an existing key
keeps its position and gets the new value, a new key is appended. -/
def dictInsert (d : List (String × String)) (k v : String) : List (String × String) :=
  if k ∈ d.map Prod.fst then d.map (fun kv => if kv.1 = k then (k, v) else kv)
  else d ++ [(k, v)]

/-- The dict `dict(pairs)` built left to right, as Python does. -/
def dictBuild (d : List (String × String)) : List (String × String) → List (String × String)
  | [] => d
  | kv :: rest => dictBuild (dictInsert d kv.1 kv.2) rest

/-- The assignment `q = dict(parse_qsl(parsed.query, keep_blank_values=True))`
(main_cli_optimized.py line 341): duplicate keys collapse to their last
value, at the position of their first occurrence. -/
def dictOfPairs (l : List (String × String)) : List (String × String) :=
  dictBuild [] l

/-- Function `build_page_url` (main_cli_optimized.py lines 339-344): rebuild the
query from `dict(parse_qsl(query))` with `q['page'] = str(page_num)`;
all other URL components pass through `urlunparse` unchanged. -/
def build_page_url (base_url : PyUrl) (page_num : Nat) : PyUrl :=
  { base_url with query := dictInsert (dictOfPairs base_url.query) "page" (toString page_num) }

/-- The shard plan of single-URL parallel mode (main_cli_optimized.py
line 386): `[build_page_url(url, p) for p in range(1, max(2, max_pages) + 1)]`. -/
def shard_urls (url : PyUrl) (max_pages : Nat) : List PyUrl :=
  (List.range' 1 (max 2 max_pages)).map (build_page_url url)

/-- A URL whose query repeats the key `a` — legal in a query string,
where `parse_qsl` yields both pairs. -/
def dupUrl : PyUrl := ⟨"https", "www.carrefour.fr", "/s", "", "", [("a", "1"), ("a", "2")]⟩

/-- A URL with a single, duplicate-free query parameter. -/
def plainUrl : PyUrl := ⟨"https", "www.carrefour.fr", "/s", "", "", [("q", "yaourt")]⟩

end MainCliOptimized

/-- The identity key the merge and the optimized extractor actually use:
the record's url when it is truthy, nothing otherwise. -/
def pyKey (r : Record) : Option String :=
  match r.url with
  | none => none
  | some u => if u = "" then none else some u

/-- The usable identity keys of a record list, in order. -/
def pyKeys (l : List Record) : List String := l.filterMap pyKey

/-- The non-`None` urls of a record list, in order (the claim's notion of
identity key: the product URL, absent only when it is `None`). -/
def recordUrls (l : List Record) : List String := l.filterMap (fun r => r.url)

/-- First-seen deduplication of a key list against an already-seen set:
the first occurrence of each unseen key is kept, in order. -/
def dedupFirstAux (seen : List String) : List String → List String
  | [] => []
  | k :: ks => if k ∈ seen then dedupFirstAux seen ks else k :: dedupFirstAux (k :: seen) ks

/-- First-seen deduplication of a key list. -/
def dedupFirst (l : List String) : List String := dedupFirstAux [] l

/-- Predicate `chainFrom s ss`: each snapshot in `ss` extends the previous one by
appending items at the end, starting from `s` (an accumulating,
append-only content surface). -/
def chainFrom : List (Except Unit Record) → List (List (Except Unit Record)) → Prop
  | _, [] => True
  | s, t :: ts => (∃ u, t = s ++ u) ∧ chainFrom t ts

/-- Concrete product records used in concrete evaluations. -/
def rA : Record := mkRecord (some "https://www.carrefour.fr/p/a")

/-- See `rA`. -/
def rB : Record := mkRecord (some "https://www.carrefour.fr/p/b")

/-- See `rA`. -/
def rC : Record := mkRecord (some "https://www.carrefour.fr/p/c")

/-- A record whose extracted url is the empty string: non-`None`, but
falsy in Python. -/
def rE : Record := mkRecord (some "")

/-!  Lemmas and claim theorems. -/

namespace Scraper

theorem waitLoop_eq_true_iff (counts : Nat → Nat) (prev : Nat) :
    ∀ (fuel i : Nat), waitLoop counts prev i fuel = true ↔
      ∃ j, j < fuel ∧ counts (i + j) > prev := by
  intro fuel
  induction fuel with
  | zero => intro i; simp [waitLoop]
  | succ n ih =>
      intro i
      rw [waitLoop]
      by_cases h : counts i > prev
      · rw [if_pos h]
        exact ⟨fun _ => ⟨0, Nat.succ_pos n, by simpa using h⟩, fun _ => rfl⟩
      · rw [if_neg h, ih (i + 1)]
        constructor
        · rintro ⟨j, hj, hc⟩
          exact ⟨j + 1, by omega, by simpa [Nat.add_comm, Nat.add_assoc, Nat.add_left_comm] using hc⟩
        · rintro ⟨j, hj, hc⟩
          match j with
          | 0 => exact absurd (by simpa using hc) h
          | j + 1 =>
              exact ⟨j, by omega, by simpa [Nat.add_comm, Nat.add_assoc, Nat.add_left_comm] using hc⟩

theorem lt_numPolls_iff (timeout_ms poll_ms : Nat) (hpoll : 0 < poll_ms) (i : Nat) :
    i < numPolls timeout_ms poll_ms ↔ i * poll_ms < timeout_ms := by
  unfold numPolls
  have h1 : i + 1 ≤ (timeout_ms + poll_ms - 1) / poll_ms ↔
      (i + 1) * poll_ms ≤ timeout_ms + poll_ms - 1 := Nat.le_div_iff_mul_le hpoll
  have h2 : (i + 1) * poll_ms = i * poll_ms + poll_ms := by ring
  constructor
  · intro h
    have := h1.mp (by omega)
    omega
  · intro h
    have := h1.mpr (by omega)
    omega

/-- CLAIM C5: `wait_for_increase(prev_count, timeout_ms, poll_ms)` returns
`True` iff the materialized count strictly exceeds `prev_count` at some
poll taken before `timeout_ms` elapses (poll `i` happens at elapsed time
`i * poll_ms`), and returns `False` on timeout.  The embedding is a total
pure function of the observed counts: it performs no action on the
content source and returns a value (rather than raising) for every count
sequence, stalled ones included. -/
theorem wait_for_increase_iff (counts : Nat → Nat) (prev_count timeout_ms poll_ms : Nat)
    (hpoll : 0 < poll_ms) :
    (wait_for_increase counts prev_count timeout_ms poll_ms = true ↔
      ∃ i, i * poll_ms < timeout_ms ∧ counts i > prev_count) ∧
    (wait_for_increase counts prev_count timeout_ms poll_ms = false ↔
      ∀ i, i * poll_ms < timeout_ms → counts i ≤ prev_count) := by
  have key : wait_for_increase counts prev_count timeout_ms poll_ms = true ↔
      ∃ i, i * poll_ms < timeout_ms ∧ counts i > prev_count := by
    unfold wait_for_increase
    rw [waitLoop_eq_true_iff]
    constructor
    · rintro ⟨j, hj, hc⟩
      exact ⟨j, (lt_numPolls_iff _ _ hpoll j).mp hj, by simpa using hc⟩
    · rintro ⟨i, hi, hc⟩
      exact ⟨i, (lt_numPolls_iff _ _ hpoll i).mpr hi, by simpa using hc⟩
  refine ⟨key, ?_⟩
  constructor
  · intro hf i hi
    by_contra hgt
    have : wait_for_increase counts prev_count timeout_ms poll_ms = true :=
      key.mpr ⟨i, hi, by omega⟩
    rw [hf] at this
    exact Bool.false_ne_true this
  · intro h
    cases hb : wait_for_increase counts prev_count timeout_ms poll_ms with
    | false => rfl
    | true =>
        obtain ⟨i, hi, hc⟩ := key.mp hb
        exact absurd (h i hi) (by omega)

/-- Witness for C5 at concrete inputs: polling a count that jumps to 5
above a previous count of 3 with the source's default timings. -/
theorem wait_for_increase_iff_witness :
    (wait_for_increase (fun _ => 5) 3 15000 300 = true ↔
      ∃ i, i * 300 < 15000 ∧ (fun _ => 5 : Nat → Nat) i > 3) ∧
    (wait_for_increase (fun _ => 5) 3 15000 300 = false ↔
      ∀ i, i * 300 < 15000 → (fun _ => 5 : Nat → Nat) i ≤ 3) :=
  wait_for_increase_iff (fun _ => 5) 3 15000 300 (by norm_num)

theorem scrollGo_steps_le (counts : Nat → Nat) :
    ∀ (fuel i prev : Nat) (inc : Bool), (scrollGo counts fuel i prev inc).2.2 ≤ i + fuel := by
  intro fuel
  induction fuel with
  | zero => intro i prev inc; simp [scrollGo]
  | succ n ih =>
      intro i prev inc
      rw [scrollGo]
      by_cases h : counts i > prev
      · rw [if_pos h]
        have := ih (i + 1) (counts i) true
        omega
      · rw [if_neg h]
        dsimp only
        omega

theorem runScroll_steps_le (prev : Nat) (b : BranchEnv) : (runScroll prev b).2.2 ≤ 10 := by
  unfold runScroll
  cases hb : b.throws with
  | true => simp
  | false =>
      rw [if_neg Bool.false_ne_true]
      have := scrollGo_steps_le b.counts 10 0 prev false
      omega

theorem attemptOf_scrollSteps (lm np : Bool × Bool) (sc : Bool × Nat × Nat) :
    (attemptOf lm np sc).scrollSteps = 0 ∨ (attemptOf lm np sc).scrollSteps = sc.2.2 := by
  unfold attemptOf
  by_cases h1 : lm.1 && lm.2
  · simp [h1]
  · by_cases h2 : np.1 && np.2
    · simp [h1, h2]
    · simp [h1, h2]

theorem runAttempt_scrollSteps_le (e : AttemptEnv) : (runAttempt e).scrollSteps ≤ 10 := by
  unfold runAttempt
  rcases attemptOf_scrollSteps (runBranch e.prev e.loadMore) (runBranch e.prev e.nextPage)
    (runScroll e.prev e.scroll) with h | h
  · omega
  · rw [h]
    exact runScroll_steps_le e.prev e.scroll

theorem loopGo_attempts_le (env : Nat → AttemptEnv) :
    ∀ (fuel attempts passes : Nat) (trace : List AttemptOut),
      (loopGo env fuel attempts passes trace).attempts ≤ attempts + fuel := by
  intro fuel
  induction fuel with
  | zero => intro a p tr; simp [loopGo]
  | succ n ih =>
      intro a p tr
      rw [loopGo]
      cases h : (runAttempt (env a)).progressed with
      | true =>
          rw [if_pos rfl]
          have := ih (a + 1) (p + 1) (tr ++ [runAttempt (env a)])
          omega
      | false =>
          rw [if_neg Bool.false_ne_true]
          dsimp only
          omega

theorem loopGo_trace_len (env : Nat → AttemptEnv) :
    ∀ (fuel attempts passes : Nat) (trace : List AttemptOut),
      (loopGo env fuel attempts passes trace).trace.length ≤ trace.length + fuel := by
  intro fuel
  induction fuel with
  | zero => intro a p tr; simp [loopGo]
  | succ n ih =>
      intro a p tr
      rw [loopGo]
      cases h : (runAttempt (env a)).progressed with
      | true =>
          rw [if_pos rfl]
          have := ih (a + 1) (p + 1) (tr ++ [runAttempt (env a)])
          simp only [List.length_append, List.length_cons, List.length_nil] at this ⊢
          omega
      | false =>
          rw [if_neg Bool.false_ne_true]
          simp only [List.length_append, List.length_cons, List.length_nil]
          omega

theorem loopGo_trace_mem (env : Nat → AttemptEnv) :
    ∀ (fuel attempts passes : Nat) (trace : List AttemptOut) (out : AttemptOut),
      out ∈ (loopGo env fuel attempts passes trace).trace →
        out ∈ trace ∨ ∃ k, out = runAttempt (env k) := by
  intro fuel
  induction fuel with
  | zero =>
      intro a p tr out h
      rw [loopGo] at h
      exact Or.inl h
  | succ n ih =>
      intro a p tr out h
      rw [loopGo] at h
      cases hp : (runAttempt (env a)).progressed with
      | true =>
          rw [hp, if_pos rfl] at h
          rcases ih (a + 1) (p + 1) (tr ++ [runAttempt (env a)]) out h with hmem | hk
          · rcases List.mem_append.mp hmem with h1 | h2
            · exact Or.inl h1
            · exact Or.inr ⟨a, by simpa using h2⟩
          · exact Or.inr hk
      | false =>
          rw [hp, if_neg Bool.false_ne_true] at h
          rcases List.mem_append.mp h with h1 | h2
          · exact Or.inl h1
          · exact Or.inr ⟨a, by simpa using h2⟩

/-- CLAIM C3: for every page behaviour and every budget, the traversal
terminates with the attempt counter (= number of loop iterations) at most
`max_load_attempts`, and every attempt performs at most 10 scroll steps. -/
theorem traversal_bounded (env : Nat → AttemptEnv) (max_load_attempts : Nat) :
    (extract_all_products env max_load_attempts).attempts ≤ max_load_attempts ∧
    (extract_all_products env max_load_attempts).trace.length ≤ max_load_attempts ∧
    ∀ out ∈ (extract_all_products env max_load_attempts).trace, out.scrollSteps ≤ 10 := by
  refine ⟨?_, ?_, ?_⟩
  · have := loopGo_attempts_le env max_load_attempts 0 1 []
    unfold extract_all_products
    omega
  · have := loopGo_trace_len env max_load_attempts 0 1 []
    unfold extract_all_products
    simpa using this
  · intro out hout
    rcases loopGo_trace_mem env max_load_attempts 0 1 [] out hout with h | ⟨k, hk⟩
    · simp at h
    · rw [hk]
      exact runAttempt_scrollSteps_le (env k)

/-- Witness for C3: the bound evaluated on a concrete page with nothing
to load and a budget of 3. -/
theorem traversal_bounded_witness :
    (extract_all_products envNone 3).attempts ≤ 3 ∧
    (extract_all_products envNone 3).trace.length ≤ 3 ∧
    ∀ out ∈ (extract_all_products envNone 3).trace, out.scrollSteps ≤ 10 :=
  traversal_bounded envNone 3

theorem attemptOf_actions_sublist (lm np : Bool × Bool) (sc : Bool × Nat × Nat) :
    (attemptOf lm np sc).actions.Sublist strategyOrder := by
  rcases lm with ⟨c1, p1⟩
  rcases np with ⟨c2, p2⟩
  rcases sc with ⟨si, sp, st⟩
  by_cases hst : st > 0 <;>
    cases c1 <;> cases p1 <;> cases c2 <;> cases p2 <;>
      simp [attemptOf, strategyOrder, hst]

theorem attemptOf_nextPage_mem (lm np : Bool × Bool) (sc : Bool × Nat × Nat) :
    Strategy.nextPage ∈ (attemptOf lm np sc).actions → (lm.1 && lm.2) = false := by
  rcases lm with ⟨c1, p1⟩
  rcases np with ⟨c2, p2⟩
  rcases sc with ⟨si, sp, st⟩
  by_cases hst : st > 0 <;>
    cases c1 <;> cases p1 <;> cases c2 <;> cases p2 <;>
      simp [attemptOf, strategyOrder, hst]

theorem attemptOf_scroll_mem (lm np : Bool × Bool) (sc : Bool × Nat × Nat) :
    Strategy.scroll ∈ (attemptOf lm np sc).actions →
      (lm.1 && lm.2) = false ∧ (np.1 && np.2) = false := by
  rcases lm with ⟨c1, p1⟩
  rcases np with ⟨c2, p2⟩
  rcases sc with ⟨si, sp, st⟩
  by_cases hst : st > 0 <;>
    cases c1 <;> cases p1 <;> cases c2 <;> cases p2 <;>
      simp [attemptOf, strategyOrder, hst]

theorem loopGo_dropLast_progressed (env : Nat → AttemptEnv) :
    ∀ (fuel attempts passes : Nat) (trace : List AttemptOut),
      (∀ out ∈ trace, out.progressed = true) →
      ∀ out ∈ (loopGo env fuel attempts passes trace).trace.dropLast, out.progressed = true := by
  intro fuel
  induction fuel with
  | zero =>
      intro a p tr htr out hout
      rw [loopGo] at hout
      exact htr out (List.dropLast_sublist _ |>.subset hout)
  | succ n ih =>
      intro a p tr htr out hout
      rw [loopGo] at hout
      cases hp : (runAttempt (env a)).progressed with
      | true =>
          rw [hp, if_pos rfl] at hout
          refine ih (a + 1) (p + 1) (tr ++ [runAttempt (env a)]) ?_ out hout
          intro o ho
          rcases List.mem_append.mp ho with h1 | h2
          · exact htr o h1
          · rw [List.mem_singleton.mp h2]
            exact hp
      | false =>
          rw [hp, if_neg Bool.false_ne_true] at hout
          dsimp only at hout
          rw [List.dropLast_concat] at hout
          exact htr out hout

theorem loopGo_attempts_trace (env : Nat → AttemptEnv) :
    ∀ (fuel attempts passes : Nat) (trace : List AttemptOut), attempts = trace.length →
      (loopGo env fuel attempts passes trace).attempts =
        (loopGo env fuel attempts passes trace).trace.length := by
  intro fuel
  induction fuel with
  | zero => intro a p tr h; rw [loopGo]; exact h
  | succ n ih =>
      intro a p tr h
      rw [loopGo]
      cases hp : (runAttempt (env a)).progressed with
      | true =>
          rw [if_pos rfl]
          refine ih (a + 1) (p + 1) (tr ++ [runAttempt (env a)]) ?_
          simp [h]
      | false =>
          rw [if_neg Bool.false_ne_true]
          simp [h]

/-- CLAIM C1 (amended): within each attempt the strategies are tried in
the fixed priority order load-more, next-page, scroll, and the attempt
ends at the first strategy whose action increases the count; but an
invoked strategy whose action does not increase the count within the
timeout does not stop the traversal — control falls through to the next
strategy of the same attempt, and the loop breaks (making no further
attempts) only when an entire attempt produces no increase from any
strategy.  Concretely: every attempt's invoked-action list follows the
priority order; every attempt except possibly the last made progress (so
a no-progress attempt is always the final one); the attempt counter
equals the number of loop iterations; next-page is invoked only if the
load-more action did not make progress, and scrolling happens only if
neither click strategy made progress. -/
theorem strategy_order_amended :
    (∀ (env : Nat → AttemptEnv) (ma : Nat),
      ∀ out ∈ (extract_all_products env ma).trace, out.actions.Sublist strategyOrder) ∧
    (∀ (env : Nat → AttemptEnv) (ma : Nat),
      ∀ out ∈ (extract_all_products env ma).trace.dropLast, out.progressed = true) ∧
    (∀ (env : Nat → AttemptEnv) (ma : Nat),
      (extract_all_products env ma).attempts = (extract_all_products env ma).trace.length) ∧
    (∀ e : AttemptEnv, Strategy.nextPage ∈ (runAttempt e).actions →
      ((runBranch e.prev e.loadMore).1 && (runBranch e.prev e.loadMore).2) = false) ∧
    (∀ e : AttemptEnv, Strategy.scroll ∈ (runAttempt e).actions →
      ((runBranch e.prev e.loadMore).1 && (runBranch e.prev e.loadMore).2) = false ∧
      ((runBranch e.prev e.nextPage).1 && (runBranch e.prev e.nextPage).2) = false) := by
  refine ⟨?_, ?_, ?_, ?_, ?_⟩
  · intro env ma out hout
    rcases loopGo_trace_mem env ma 0 1 [] out hout with h | ⟨k, hk⟩
    · simp at h
    · rw [hk]
      exact attemptOf_actions_sublist _ _ _
  · intro env ma
    exact loopGo_dropLast_progressed env ma 0 1 [] (by simp)
  · intro env ma
    exact loopGo_attempts_trace env ma 0 1 [] (by simp)
  · intro e
    exact attemptOf_nextPage_mem _ _ _
  · intro e
    exact attemptOf_scroll_mem _ _ _

/-- Counterexample to C1 as stated: on `c1Env` the load-more control is
invoked in attempt 1 and its action never increases the count within the
timeout, yet the traversal does not stop there: the next-page control is
invoked in the same attempt, progresses, and a second attempt follows.
C1 predicts a stop (no further strategy invocations, one attempt) as
soon as the invoked load-more action fails to increase the count. -/
theorem strategy_order_counterexample :
    (extract_all_products c1Env 20).attempts = 2 ∧
    (extract_all_products c1Env 20).trace.map AttemptOut.actions =
      [[Strategy.loadMore, Strategy.nextPage], [Strategy.scroll]] ∧
    (extract_all_products c1Env 20).trace.map AttemptOut.progressed = [true, false] := by
  decide

/-- Witness for the amended C1 at concrete inputs: on `envNone` the
attempt counter equals the single-iteration trace length and the sole
attempt's actions follow the priority order; on `c1Env 0` next-page was
invoked and indeed the load-more action had made no progress; on
`envNone 0` scrolling happened and indeed neither click strategy had
made progress. -/
theorem strategy_order_amended_witness :
    ((extract_all_products envNone 1).attempts = (extract_all_products envNone 1).trace.length) ∧
    (AttemptOut.mk false [Strategy.scroll] 1).actions.Sublist strategyOrder ∧
    ((runBranch (c1Env 0).prev (c1Env 0).loadMore).1 &&
      (runBranch (c1Env 0).prev (c1Env 0).loadMore).2) = false ∧
    (((runBranch (envNone 0).prev (envNone 0).loadMore).1 &&
       (runBranch (envNone 0).prev (envNone 0).loadMore).2) = false ∧
     ((runBranch (envNone 0).prev (envNone 0).nextPage).1 &&
       (runBranch (envNone 0).prev (envNone 0).nextPage).2) = false) :=
  ⟨strategy_order_amended.2.2.1 envNone 1,
   strategy_order_amended.1 envNone 1 (AttemptOut.mk false [Strategy.scroll] 1) (by decide),
   strategy_order_amended.2.2.2.1 (c1Env 0) (by decide),
   strategy_order_amended.2.2.2.2 (envNone 0) (by decide)⟩

/-- CLAIM C6: every exception raised inside a strategy branch is caught
by that branch's `try/except` and is indistinguishable from the strategy
being unavailable (no click, no progress); a per-record exception inside
an extraction pass is skipped by `except: continue` in both files; the
traversal and the extraction passes are total functions of their
environments (they never propagate such errors), and only the navigation
step propagates a failure out of the run. -/
theorem soft_errors_absorbed :
    (∀ (prev : Nat) (clk : Bool) (cnts : Nat → Nat),
      runBranch prev ⟨true, clk, cnts⟩ = runBranch prev ⟨false, false, cnts⟩) ∧
    (∀ (prev : Nat) (clk : Bool) (cnts : Nat → Nat),
      runScroll prev ⟨true, clk, cnts⟩ = (false, prev, 0)) ∧
    (∀ (products : List Record) (items : List (Except Unit Record)),
      MainCli.extract_page_products products (Except.error () :: items) =
        MainCli.extract_page_products products items) ∧
    (∀ (products : List Record) (seen_urls : List String) (items : List (Except Unit Record)),
      MainCliOptimized.extractGo products seen_urls (Except.error () :: items) =
        MainCliOptimized.extractGo products seen_urls items) ∧
    (∀ (env : Nat → AttemptEnv) (ma : Nat),
      runScraper (Except.ok env) ma = Except.ok (extract_all_products env ma)) ∧
    (∀ ma : Nat, runScraper (Except.error ()) ma = Except.error ()) :=
  ⟨fun _ _ _ => rfl, fun _ _ _ => rfl, fun _ _ => rfl, fun _ _ _ => rfl,
   fun _ _ => rfl, fun _ => rfl⟩

end Scraper

theorem mem_dedupFirstAux (k : String) :
    ∀ (l seen : List String), k ∈ dedupFirstAux seen l ↔ (k ∈ l ∧ k ∉ seen) := by
  intro l
  induction l with
  | nil => intro seen; simp [dedupFirstAux]
  | cons a t ih =>
      intro seen
      rw [dedupFirstAux]
      by_cases ha : a ∈ seen
      · rw [if_pos ha, ih seen]
        simp only [List.mem_cons]
        constructor
        · rintro ⟨hk, hns⟩
          exact ⟨Or.inr hk, hns⟩
        · rintro ⟨hk | hk, hns⟩
          · subst hk; exact absurd ha hns
          · exact ⟨hk, hns⟩
      · rw [if_neg ha]
        simp only [List.mem_cons, ih (a :: seen)]
        constructor
        · rintro (rfl | ⟨hk, hns⟩)
          · exact ⟨Or.inl rfl, ha⟩
          · exact ⟨Or.inr hk, fun hs => hns (Or.inr hs)⟩
        · rintro ⟨hk | hk, hns⟩
          · exact Or.inl hk
          · by_cases hka : k = a
            · exact Or.inl hka
            · refine Or.inr ⟨hk, fun hs => ?_⟩
              rcases hs with h1 | h1
              · exact hka h1
              · exact hns h1

theorem nodup_dedupFirstAux :
    ∀ (l seen : List String), (dedupFirstAux seen l).Nodup := by
  intro l
  induction l with
  | nil => intro seen; simp [dedupFirstAux]
  | cons a t ih =>
      intro seen
      rw [dedupFirstAux]
      by_cases ha : a ∈ seen
      · rw [if_pos ha]; exact ih seen
      · rw [if_neg ha, List.nodup_cons]
        refine ⟨fun hmem => ?_, ih (a :: seen)⟩
        exact ((mem_dedupFirstAux a t (a :: seen)).mp hmem).2 (List.mem_cons_self a seen)

theorem dedupFirstAux_sublist :
    ∀ (l seen : List String), (dedupFirstAux seen l).Sublist l := by
  intro l
  induction l with
  | nil => intro seen; simp [dedupFirstAux]
  | cons a t ih =>
      intro seen
      rw [dedupFirstAux]
      by_cases ha : a ∈ seen
      · rw [if_pos ha]; exact (ih seen).cons a
      · rw [if_neg ha]; exact (ih (a :: seen)).cons₂ a

theorem pyKeys_eq_recordUrls :
    ∀ l : List Record, (∀ r ∈ l, r.url ≠ some "") → pyKeys l = recordUrls l := by
  intro l
  induction l with
  | nil => intro _; rfl
  | cons r t ih =>
      intro h
      have ht := ih (fun x hx => h x (List.mem_cons_of_mem r hx))
      cases hu : r.url with
      | none =>
          simp [pyKeys, recordUrls, List.filterMap_cons, pyKey, hu, pyKeys] at ht ⊢
          exact ht
      | some u =>
          have hne : u ≠ "" := by
            intro he
            exact h r (List.mem_cons_self r t) (by rw [hu, he])
          simp [pyKeys, recordUrls, List.filterMap_cons, pyKey, hu, hne] at ht ⊢
          exact ht

namespace MainCliOptimized

theorem mergeGo_keys :
    ∀ (ps : List Record) (seen : List String) (acc : List Record),
      pyKeys (mergeGo seen acc ps).1 = pyKeys acc ++ dedupFirstAux seen (pyKeys ps) := by
  intro ps
  induction ps with
  | nil => intro seen acc; simp [mergeGo, pyKeys, dedupFirstAux]
  | cons p t ih =>
      intro seen acc
      rw [mergeGo]
      cases hu : p.url with
      | none =>
          have hk : pyKey p = none := by simp [pyKey, hu]
          rw [ih seen acc]
          simp [pyKeys, List.filterMap_cons, hk]
      | some u =>
          dsimp only
          by_cases hcond : u ≠ "" ∧ u ∉ seen
          · rw [if_pos hcond, ih (u :: seen) (acc ++ [p])]
            have hk : pyKey p = some u := by simp [pyKey, hu, hcond.1]
            simp [pyKeys, List.filterMap_append, List.filterMap_cons, hk, dedupFirstAux,
              hcond.2]
          · rw [if_neg hcond, ih seen acc]
            by_cases hue : u = ""
            · have hk : pyKey p = none := by simp [pyKey, hu, hue]
              simp [pyKeys, List.filterMap_cons, hk]
            · have hus : u ∈ seen := by tauto
              have hk : pyKey p = some u := by simp [pyKey, hu, hue]
              simp [pyKeys, List.filterMap_cons, hk, dedupFirstAux, hus]

theorem mergeGo_mem :
    ∀ (ps : List Record) (seen : List String) (acc : List Record) (r : Record),
      r ∈ (mergeGo seen acc ps).1 → r ∈ acc ∨ ∃ u, r.url = some u ∧ u ≠ "" := by
  intro ps
  induction ps with
  | nil =>
      intro seen acc r hr
      rw [mergeGo] at hr
      exact Or.inl hr
  | cons p t ih =>
      intro seen acc r hr
      rw [mergeGo] at hr
      cases hu : p.url with
      | none =>
          rw [hu] at hr
          exact ih seen acc r hr
      | some u =>
          rw [hu] at hr
          dsimp only at hr
          by_cases hcond : u ≠ "" ∧ u ∉ seen
          · rw [if_pos hcond] at hr
            rcases ih (u :: seen) (acc ++ [p]) r hr with hmem | hx
            · rcases List.mem_append.mp hmem with h1 | h2
              · exact Or.inl h1
              · rw [List.mem_singleton.mp h2]
                exact Or.inr ⟨u, hu, hcond.1⟩
            · exact Or.inr hx
          · rw [if_neg hcond] at hr
            exact ih seen acc r hr

theorem mergeGo_keeps :
    ∀ (l : List Record) (seen : List String) (acc : List Record),
      (∀ r ∈ l, ∃ u, r.url = some u ∧ u ≠ "") → (pyKeys l).Nodup →
      (∀ k ∈ pyKeys l, k ∉ seen) → (mergeGo seen acc l).1 = acc ++ l := by
  intro l
  induction l with
  | nil => intro seen acc _ _ _; simp [mergeGo]
  | cons r t ih =>
      intro seen acc htr hnd hseen
      obtain ⟨u, hu, hne⟩ := htr r (List.mem_cons_self r t)
      have hk : pyKey r = some u := by simp [pyKey, hu, hne]
      have hkeys : pyKeys (r :: t) = u :: pyKeys t := by
        simp [pyKeys, List.filterMap_cons, hk]
      rw [hkeys] at hnd hseen
      have hu_not_t : u ∉ pyKeys t := (List.nodup_cons.mp hnd).1
      have hnd_t : (pyKeys t).Nodup := (List.nodup_cons.mp hnd).2
      have hu_seen : u ∉ seen := hseen u (List.mem_cons_self u (pyKeys t))
      rw [mergeGo, hu]
      dsimp only
      rw [if_pos (⟨hne, hu_seen⟩ : u ≠ "" ∧ u ∉ seen)]
      rw [ih (u :: seen) (acc ++ [r]) (fun x hx => htr x (List.mem_cons_of_mem r hx)) hnd_t ?_]
      · simp
      · intro k hk2
        have hk3 : k ∉ seen := hseen k (List.mem_cons_of_mem u hk2)
        intro hk4
        rcases List.mem_cons.mp hk4 with h1 | h1
        · exact hu_not_t (h1 ▸ hk2)
        · exact hk3 h1

/-- CLAIM C2: for every outcome set whose records carry product URLs
(never the empty string, which `extract_product_url` cannot produce), the
merged collection has pairwise-distinct identity keys (urls), its key
sequence is exactly the first-seen deduplication of the concatenated
outcome keys in arrival order (an order-preserving subsequence), and a
key appears in the output iff it appears in some outcome's records —
hence exactly once. -/
theorem merge_dedup_spec (outcomes : List (List Record))
    (h : ∀ r ∈ outcomes.flatten, r.url ≠ some "") :
    recordUrls (mergeShards outcomes) = dedupFirst (recordUrls outcomes.flatten) ∧
    (recordUrls (mergeShards outcomes)).Nodup ∧
    (recordUrls (mergeShards outcomes)).Sublist (recordUrls outcomes.flatten) ∧
    (∀ u, u ∈ recordUrls (mergeShards outcomes) ↔ u ∈ recordUrls outcomes.flatten) := by
  have hout_ne : ∀ r ∈ mergeShards outcomes, r.url ≠ some "" := by
    intro r hr
    rcases mergeGo_mem outcomes.flatten [] [] r hr with h0 | ⟨u, hu, hne⟩
    · simp at h0
    · rw [hu]
      intro hc
      exact hne (Option.some_inj.mp hc)
  have hkeys : pyKeys (mergeShards outcomes) = dedupFirstAux [] (pyKeys outcomes.flatten) := by
    show pyKeys (mergeGo [] [] outcomes.flatten).1 = _
    rw [mergeGo_keys outcomes.flatten [] []]
    simp [pyKeys]
  have e1 : pyKeys (mergeShards outcomes) = recordUrls (mergeShards outcomes) :=
    pyKeys_eq_recordUrls _ hout_ne
  have e2 : pyKeys outcomes.flatten = recordUrls outcomes.flatten :=
    pyKeys_eq_recordUrls _ h
  refine ⟨?_, ?_, ?_, ?_⟩
  · rw [← e1, ← e2, hkeys]; rfl
  · rw [← e1, hkeys]; exact nodup_dedupFirstAux _ []
  · rw [← e1, ← e2, hkeys]; exact dedupFirstAux_sublist _ []
  · intro u
    rw [← e1, ← e2, hkeys, mem_dedupFirstAux]
    simp

/-- Witness for C2 on a concrete outcome set with an overlapping key. -/
theorem merge_dedup_spec_witness :
    (∀ r ∈ ([[rA], [rA, rB]] : List (List Record)).flatten, r.url ≠ some "") ∧
    recordUrls (mergeShards [[rA], [rA, rB]]) =
      dedupFirst (recordUrls ([[rA], [rA, rB]] : List (List Record)).flatten) :=
  ⟨by decide, (merge_dedup_spec [[rA], [rA, rB]] (by decide)).1⟩

/-- CLAIM C8: running the merge step on its own output changes nothing:
the merged collection (hence its identity-key set) is a fixed point of
merging, however many duplicates of a key the original outcomes
contained. -/
theorem merge_idempotent (outcomes : List (List Record)) :
    mergeShards [mergeShards outcomes] = mergeShards outcomes := by
  have htr : ∀ r ∈ mergeShards outcomes, ∃ u, r.url = some u ∧ u ≠ "" := by
    intro r hr
    rcases mergeGo_mem outcomes.flatten [] [] r hr with h0 | hx
    · simp at h0
    · exact hx
  have hnd : (pyKeys (mergeShards outcomes)).Nodup := by
    show (pyKeys (mergeGo [] [] outcomes.flatten).1).Nodup
    rw [mergeGo_keys outcomes.flatten [] []]
    simpa [pyKeys] using nodup_dedupFirstAux (pyKeys outcomes.flatten) []
  have hflat : ([mergeShards outcomes] : List (List Record)).flatten = mergeShards outcomes := by
    simp
  show (mergeGo [] [] ([mergeShards outcomes] : List (List Record)).flatten).1 = _
  rw [hflat, mergeGo_keeps (mergeShards outcomes) [] [] htr hnd (fun k _ => by simp)]
  simp

/-- CLAIM C9: with `single_page_only=True`, `run` performs exactly one
extraction pass over whatever is materialized and never enters the
attempt loop of `extract_all_products`: no load attempt is consumed and
no loading action is invoked, whatever the page behaviour or budget;
with the flag off, the full traversal runs. -/
theorem single_pass_no_attempts (env : Nat → Scraper.AttemptEnv) (ma : Nat) :
    (run true env ma).attempts = 0 ∧ (run true env ma).passes = 1 ∧
    (run true env ma).trace = [] ∧
    run false env ma = Scraper.extract_all_products env ma :=
  ⟨rfl, rfl, rfl, rfl⟩

end MainCliOptimized

theorem extractGo_mem :
    ∀ (items : List (Except Unit Record)) (products : List Record) (seen_urls : List String)
      (r : Record), r ∈ (MainCliOptimized.extractGo products seen_urls items).1 →
        r ∈ products ∨ ∃ u, r.url = some u ∧ u ≠ "" := by
  intro items
  induction items with
  | nil =>
      intro P S r hr
      rw [MainCliOptimized.extractGo] at hr
      exact Or.inl hr
  | cons it t ih =>
      intro P S r hr
      cases it with
      | error e =>
          rw [MainCliOptimized.extractGo] at hr
          exact ih P S r hr
      | ok p =>
          rw [MainCliOptimized.extractGo] at hr
          cases hu : p.url with
          | none =>
              rw [hu] at hr
              exact ih P S r hr
          | some u =>
              rw [hu] at hr
              dsimp only at hr
              by_cases hcond : u ≠ "" ∧ u ∉ S
              · rw [if_pos hcond] at hr
                rcases ih (P ++ [p]) (u :: S) r hr with hmem | hx
                · rcases List.mem_append.mp hmem with h1 | h2
                  · exact Or.inl h1
                  · rw [List.mem_singleton.mp h2]
                    exact Or.inr ⟨u, hu, hcond.1⟩
                · exact Or.inr hx
              · rw [if_neg hcond] at hr
                exact ih P S r hr

theorem orig_none_count :
    ∀ (items : List (Except Unit Record)) (products : List Record),
      (MainCli.extract_page_products products items).countP (fun r => r.url == none) ≤
        max 1 (products.countP (fun r => r.url == none)) := by
  intro items
  induction items with
  | nil =>
      intro P
      rw [MainCli.extract_page_products]
      exact le_max_right 1 _
  | cons it t ih =>
      intro P
      cases it with
      | error e =>
          rw [MainCli.extract_page_products]
          exact ih P
      | ok r =>
          rw [MainCli.extract_page_products]
          by_cases hany : P.any (fun p => p.url == r.url) = true
          · rw [if_pos hany]
            exact ih P
          · rw [if_neg hany]
            cases hu : r.url with
            | none =>
                rw [hu] at hany
                have h0 : P.countP (fun x => x.url == none) = 0 := by
                  rw [List.countP_eq_zero]
                  intro a ha hpa
                  exact hany (List.any_eq_true.mpr ⟨a, ha, hpa⟩)
                have hP1 : (P ++ [r]).countP (fun x => x.url == none) = 1 := by
                  rw [List.countP_append, h0]
                  simp [hu, List.countP_cons]
                have := ih (P ++ [r])
                rw [hP1] at this
                simp only [max_self] at this
                omega
            | some u =>
                have hP1 : (P ++ [r]).countP (fun x => x.url == none) =
                    P.countP (fun x => x.url == none) := by
                  rw [List.countP_append]
                  simp [hu, List.countP_cons]
                have := ih (P ++ [r])
                rw [hP1] at this
                exact this

/-- Counterexample to C4 as stated: in `main_cli.py` a record whose url
is `None` is not discarded — starting from an empty collection, the
linear-scan duplicate check finds no record with an equal (`None`) url
and appends it. -/
theorem extract_discard_counterexample :
    MainCli.extract_page_products [] [Except.ok (mkRecord none)] = [mkRecord none] ∧
    (mkRecord none).url = none := by
  constructor
  · decide
  · rfl

/-- CLAIM C4 (amended): in the optimized extractor a record whose url
cannot be resolved (`None`) — or is empty — is never appended: everything
it adds to the collection carries a non-empty url.  In the original
extractor a `None`-url record is deduplicated like any url value: the
first one is appended when no `None`-url record has been collected yet,
so the collection holds at most one record with an unresolved key (at
most the number it started with, and at most 1 when it started with
none). -/
theorem extract_discard_amended :
    (∀ (items : List (Except Unit Record)) (products : List Record) (seen_urls : List String)
       (start_index : Nat) (r : Record),
        r ∈ (MainCliOptimized.extract_page_products products seen_urls items start_index).1 →
          r ∈ products ∨ ∃ u, r.url = some u ∧ u ≠ "") ∧
    (∀ (items : List (Except Unit Record)) (products : List Record),
        (MainCli.extract_page_products products items).countP (fun r => r.url == none) ≤
          max 1 (products.countP (fun r => r.url == none))) := by
  constructor
  · intro items P S n r hr
    exact extractGo_mem (items.drop n) P S r hr
  · exact orig_none_count

/-- Witness for the amended C4: the optimized extractor's membership
conclusion at a concrete kept record, and the original extractor's bound
evaluated on the `None`-url input of the counterexample. -/
theorem extract_discard_amended_witness :
    (rA ∈ ([] : List Record) ∨ ∃ u, rA.url = some u ∧ u ≠ "") ∧
    (MainCli.extract_page_products [] [Except.ok (mkRecord none)]).countP
        (fun r => r.url == none) ≤
      max 1 (([] : List Record).countP (fun r => r.url == none)) :=
  ⟨extract_discard_amended.1 [Except.ok rA] [] [] 0 rA (by decide),
   extract_discard_amended.2 [Except.ok (mkRecord none)] []⟩

theorem dictBuild_nodup :
    ∀ (l d : List (String × String)), ((d ++ l).map Prod.fst).Nodup →
      MainCliOptimized.dictBuild d l = d ++ l := by
  intro l
  induction l with
  | nil =>
      intro d _
      rw [MainCliOptimized.dictBuild]
      simp
  | cons kv t ih =>
      intro d hnd
      rcases kv with ⟨k, v⟩
      rw [MainCliOptimized.dictBuild]
      have hk_not : k ∉ d.map Prod.fst := by
        intro hmem
        rw [List.map_append] at hnd
        exact (List.nodup_append.mp hnd).2.2 hmem (by simp)
      have hins : MainCliOptimized.dictInsert d k v = d ++ [(k, v)] := by
        rw [MainCliOptimized.dictInsert, if_neg hk_not]
      rw [hins]
      have hassoc : (d ++ [(k, v)]) ++ t = d ++ (k, v) :: t := by simp
      rw [ih (d ++ [(k, v)]) (by rw [hassoc]; exact hnd), hassoc]

/-- Counterexample to C7 as stated: on a URL whose query repeats a key,
`dict(parse_qsl(...))` collapses the duplicates to the last value, so a
query parameter other than `page` is changed (dropped) by
`build_page_url`. -/
theorem build_page_url_counterexample :
    ("a", "1") ∈ MainCliOptimized.dupUrl.query ∧
    ("a", "1") ∉ (MainCliOptimized.build_page_url MainCliOptimized.dupUrl 3).query := by
  decide

/-- CLAIM C7 (amended): for every URL whose query has pairwise-distinct
parameter keys, `build_page_url(url, n)` keeps the scheme, host, path,
params and fragment and every other query parameter unchanged, setting
`page` to `n` in place when present and appending it otherwise (on
duplicate keys each duplicated parameter collapses to its last value, as
the counterexample shows); and in single-URL sharded mode the planned
shards are `build_page_url(url, p)` for `p = 1 .. max(2, max_pages)`,
always at least 2 of them. -/
theorem build_page_url_amended (u : MainCliOptimized.PyUrl) (n max_pages : Nat)
    (hnd : (u.query.map Prod.fst).Nodup) :
    (MainCliOptimized.build_page_url u n).scheme = u.scheme ∧
    (MainCliOptimized.build_page_url u n).netloc = u.netloc ∧
    (MainCliOptimized.build_page_url u n).path = u.path ∧
    (MainCliOptimized.build_page_url u n).params = u.params ∧
    (MainCliOptimized.build_page_url u n).fragment = u.fragment ∧
    ((MainCliOptimized.build_page_url u n).query =
      if "page" ∈ u.query.map Prod.fst then
        u.query.map (fun kv => if kv.1 = "page" then ("page", toString n) else kv)
      else u.query ++ [("page", toString n)]) ∧
    2 ≤ (MainCliOptimized.shard_urls u max_pages).length ∧
    (MainCliOptimized.shard_urls u max_pages).length = max 2 max_pages ∧
    (∀ p, 1 ≤ p → p ≤ max 2 max_pages →
      MainCliOptimized.build_page_url u p ∈ MainCliOptimized.shard_urls u max_pages) := by
  have hq : (MainCliOptimized.build_page_url u n).query =
      MainCliOptimized.dictInsert u.query "page" (toString n) := by
    show MainCliOptimized.dictInsert (MainCliOptimized.dictOfPairs u.query) "page" (toString n) =
      _
    rw [MainCliOptimized.dictOfPairs, dictBuild_nodup u.query [] (by simpa using hnd)]
    simp
  have hlen : (MainCliOptimized.shard_urls u max_pages).length = max 2 max_pages := by
    simp [MainCliOptimized.shard_urls]
  refine ⟨rfl, rfl, rfl, rfl, rfl, ?_, ?_, hlen, ?_⟩
  · rw [hq, MainCliOptimized.dictInsert]
  · rw [hlen]
    exact le_max_left 2 max_pages
  · intro p h1 h2
    refine List.mem_map_of_mem (MainCliOptimized.build_page_url u) ?_
    rw [List.mem_range'_1]
    omega

/-- Witness for the amended C7: the query rewrite and the shard-count
bound evaluated on a duplicate-free concrete URL. -/
theorem build_page_url_amended_witness :
    ((MainCliOptimized.plainUrl.query.map Prod.fst).Nodup) ∧
    ((MainCliOptimized.build_page_url MainCliOptimized.plainUrl 3).query =
      if "page" ∈ MainCliOptimized.plainUrl.query.map Prod.fst then
        MainCliOptimized.plainUrl.query.map
          (fun kv => if kv.1 = "page" then ("page", toString 3) else kv)
      else MainCliOptimized.plainUrl.query ++ [("page", toString 3)]) ∧
    2 ≤ (MainCliOptimized.shard_urls MainCliOptimized.plainUrl 12).length :=
  ⟨by decide, (build_page_url_amended MainCliOptimized.plainUrl 3 12 (by decide)).2.2.2.2.2.1,
   (build_page_url_amended MainCliOptimized.plainUrl 3 12 (by decide)).2.2.2.2.2.2.1⟩

theorem orig_extract_append :
    ∀ (items : List (Except Unit Record)) (P : List Record),
      ∃ ext, MainCli.extract_page_products P items = P ++ ext := by
  intro items
  induction items with
  | nil =>
      intro P
      exact ⟨[], by rw [MainCli.extract_page_products]; simp⟩
  | cons it t ih =>
      intro P
      cases it with
      | error e =>
          obtain ⟨ext, he⟩ := ih P
          exact ⟨ext, by rw [MainCli.extract_page_products]; exact he⟩
      | ok r =>
          by_cases hany : P.any (fun p => p.url == r.url) = true
          · obtain ⟨ext, he⟩ := ih P
            refine ⟨ext, ?_⟩
            rw [MainCli.extract_page_products, if_pos hany]
            exact he
          · obtain ⟨ext, he⟩ := ih (P ++ [r])
            refine ⟨[r] ++ ext, ?_⟩
            rw [MainCli.extract_page_products, if_neg hany, he]
            simp

theorem orig_extract_covers :
    ∀ (items : List (Except Unit Record)) (P : List Record) (r : Record),
      Except.ok r ∈ items →
        (MainCli.extract_page_products P items).any (fun p => p.url == r.url) = true := by
  intro items
  induction items with
  | nil =>
      intro P r hmem
      simp at hmem
  | cons it t ih =>
      intro P r hmem
      cases it with
      | error e =>
          rw [MainCli.extract_page_products]
          rcases List.mem_cons.mp hmem with heq | htail
          · exact absurd heq (by simp)
          · exact ih P r htail
      | ok r' =>
          rw [MainCli.extract_page_products]
          by_cases hany : P.any (fun p => p.url == r'.url) = true
          · rw [if_pos hany]
            rcases List.mem_cons.mp hmem with heq | htail
            · have hrr : r = r' := by
                have := Except.ok.inj heq
                exact this
              subst hrr
              obtain ⟨ext, he⟩ := orig_extract_append t P
              rw [he, List.any_append, hany]
              simp
            · exact ih P r htail
          · rw [if_neg hany]
            rcases List.mem_cons.mp hmem with heq | htail
            · have hrr : r = r' := Except.ok.inj heq
              subst hrr
              obtain ⟨ext, he⟩ := orig_extract_append t (P ++ [r])
              rw [he, List.any_append, List.any_append]
              simp
            · exact ih (P ++ [r']) r htail

theorem orig_extract_skip :
    ∀ (s items : List (Except Unit Record)) (P : List Record),
      (∀ r : Record, Except.ok r ∈ s → P.any (fun p => p.url == r.url) = true) →
      MainCli.extract_page_products P (s ++ items) = MainCli.extract_page_products P items := by
  intro s
  induction s with
  | nil => intro items P _; rfl
  | cons it s' ih =>
      intro items P hcov
      cases it with
      | error e =>
          rw [List.cons_append, MainCli.extract_page_products]
          exact ih items P (fun r hr => hcov r (List.mem_cons_of_mem _ hr))
      | ok r =>
          rw [List.cons_append, MainCli.extract_page_products,
            if_pos (hcov r (List.mem_cons_self _ _))]
          exact ih items P (fun x hx => hcov x (List.mem_cons_of_mem _ hx))

theorem opt_orig_step :
    ∀ (items : List (Except Unit Record)) (P Q : List Record) (S : List String),
      Q = P.filter truthyR →
      (∀ v : String, v ∈ S ↔ (v ≠ "" ∧ ∃ p ∈ P, p.url = some v)) →
      (MainCliOptimized.extractGo Q S items).1 =
        (MainCli.extract_page_products P items).filter truthyR ∧
      (∀ v : String, v ∈ (MainCliOptimized.extractGo Q S items).2 ↔
        (v ≠ "" ∧ ∃ p ∈ MainCli.extract_page_products P items, p.url = some v)) := by
  intro items
  induction items with
  | nil =>
      intro P Q S hA hB
      rw [MainCliOptimized.extractGo, MainCli.extract_page_products]
      exact ⟨hA, hB⟩
  | cons it t ih =>
      intro P Q S hA hB
      cases it with
      | error e =>
          rw [MainCliOptimized.extractGo, MainCli.extract_page_products]
          exact ih P Q S hA hB
      | ok r =>
          rw [MainCliOptimized.extractGo, MainCli.extract_page_products]
          cases hu : r.url with
          | none =>
              dsimp only
              by_cases hany : P.any (fun p => p.url == none) = true
              · rw [if_pos hany]
                exact ih P Q S hA hB
              · rw [if_neg hany]
                refine ih (P ++ [r]) Q S ?_ ?_
                · rw [hA, List.filter_append]
                  simp [truthyR, pyTruthy, hu]
                · intro v
                  rw [hB v]
                  constructor
                  · rintro ⟨hv, p, hp, hpu⟩
                    exact ⟨hv, p, List.mem_append.mpr (Or.inl hp), hpu⟩
                  · rintro ⟨hv, p, hp, hpu⟩
                    rcases List.mem_append.mp hp with h1 | h2
                    · exact ⟨hv, p, h1, hpu⟩
                    · rw [List.mem_singleton.mp h2] at hpu
                      rw [hu] at hpu
                      exact absurd hpu (by simp)
          | some w =>
              dsimp only
              by_cases hw : w = ""
              · subst hw
                rw [if_neg (fun hcon => hcon.1 rfl)]
                by_cases hany : P.any (fun p => p.url == some "") = true
                · rw [if_pos hany]
                  exact ih P Q S hA hB
                · rw [if_neg hany]
                  refine ih (P ++ [r]) Q S ?_ ?_
                  · rw [hA, List.filter_append]
                    simp [truthyR, pyTruthy, hu]
                  · intro v
                    rw [hB v]
                    constructor
                    · rintro ⟨hv, p, hp, hpu⟩
                      exact ⟨hv, p, List.mem_append.mpr (Or.inl hp), hpu⟩
                    · rintro ⟨hv, p, hp, hpu⟩
                      rcases List.mem_append.mp hp with h1 | h2
                      · exact ⟨hv, p, h1, hpu⟩
                      · rw [List.mem_singleton.mp h2] at hpu
                        rw [hu] at hpu
                        exact absurd (Option.some_inj.mp hpu).symm hv
              · have hSany : w ∈ S ↔ P.any (fun p => p.url == some w) = true := by
                  rw [hB w, List.any_eq_true]
                  constructor
                  · rintro ⟨hne, p, hp, hpu⟩
                    exact ⟨p, hp, by rw [hpu]; simp⟩
                  · rintro ⟨p, hp, hpred⟩
                    exact ⟨hw, p, hp, by simpa using hpred⟩
                by_cases hany : P.any (fun p => p.url == some w) = true
                · rw [if_neg (fun hcon => hcon.2 (hSany.mpr hany)), if_pos hany]
                  exact ih P Q S hA hB
                · have hwS : w ∉ S := fun h => hany (hSany.mp h)
                  rw [if_pos ⟨hw, hwS⟩, if_neg hany]
                  refine ih (P ++ [r]) (Q ++ [r]) (w :: S) ?_ ?_
                  · rw [hA, List.filter_append]
                    simp [truthyR, pyTruthy, hu, hw]
                  · intro v
                    simp only [List.mem_cons]
                    constructor
                    · rintro (rfl | hvS)
                      · exact ⟨hw, r, List.mem_append.mpr (Or.inr (by simp)), hu⟩
                      · obtain ⟨hv, p, hp, hpu⟩ := (hB v).mp hvS
                        exact ⟨hv, p, List.mem_append.mpr (Or.inl hp), hpu⟩
                    · rintro ⟨hv, p, hp, hpu⟩
                      rcases List.mem_append.mp hp with h1 | h2
                      · exact Or.inr ((hB v).mpr ⟨hv, p, h1, hpu⟩)
                      · rw [List.mem_singleton.mp h2] at hpu
                        rw [hu] at hpu
                        exact Or.inl (Option.some_inj.mp hpu).symm

theorem passes_refine :
    ∀ (ss : List (List (Except Unit Record))) (s : List (Except Unit Record))
      (P Q : List Record) (S : List String),
      Q = P.filter truthyR →
      (∀ v : String, v ∈ S ↔ (v ≠ "" ∧ ∃ p ∈ P, p.url = some v)) →
      (∀ r : Record, Except.ok r ∈ s → P.any (fun p => p.url == r.url) = true) →
      chainFrom s ss →
      (MainCli.origPasses P ss).filter truthyR = MainCliOptimized.optPasses Q S s.length ss := by
  intro ss
  induction ss with
  | nil =>
      intro s P Q S hA _ _ _
      rw [MainCli.origPasses, MainCliOptimized.optPasses]
      exact hA.symm
  | cons t ts ih =>
      intro s P Q S hA hB hC hch
      rw [chainFrom] at hch
      obtain ⟨⟨ext, hext⟩, hch'⟩ := hch
      subst hext
      rw [MainCli.origPasses, MainCliOptimized.optPasses]
      rw [orig_extract_skip s ext P hC]
      have hex : MainCliOptimized.extract_page_products Q S (s ++ ext) s.length =
          MainCliOptimized.extractGo Q S ext := by
        rw [MainCliOptimized.extract_page_products]
        congr 1
        simp [List.drop_left]
      rw [hex]
      obtain ⟨hA', hB'⟩ := opt_orig_step ext P Q S hA hB
      refine ih (s ++ ext) (MainCli.extract_page_products P ext)
        (MainCliOptimized.extractGo Q S ext).1 (MainCliOptimized.extractGo Q S ext).2
        hA' hB' ?_ hch'
      intro r hr
      rcases List.mem_append.mp hr with h1 | h2
      · obtain ⟨e2, he2⟩ := orig_extract_append ext P
        rw [he2, List.any_append, hC r h1]
        simp
      · exact orig_extract_covers ext P r h2

/-- Counterexample to C10 as stated: (a) a record whose extracted url is
the empty string has a non-`None` url and is collected by the original
extractor but discarded by the optimized one (Python truthiness); (b) on
a snapshot sequence in which the count grows but the items are replaced
rather than appended, the optimized extractor's `start_index` slice
skips a record the original collects. -/
theorem refinement_counterexample :
    (MainCli.origPasses [] [[Except.ok rE]] = [rE] ∧ rE.url ≠ none ∧
      MainCliOptimized.optPasses [] [] 0 [[Except.ok rE]] = []) ∧
    (MainCli.origPasses [] [[Except.ok rA], [Except.ok rB, Except.ok rC]] = [rA, rB, rC] ∧
      MainCliOptimized.optPasses [] [] 0 [[Except.ok rA], [Except.ok rB, Except.ok rC]] =
        [rA, rC]) := by
  decide

/-- CLAIM C10 (amended): over every append-only sequence of materialized
item snapshots (each snapshot extends the previous one, as the source's
accumulation assumption requires), the original extractor — re-extracting
every item each pass and rejecting duplicates by a linear url scan — and
the optimized extractor — slicing from the previous count and rejecting
duplicates via `seen_urls` — collect the same records in the same
first-seen order, once the records the optimized path drops by design
(url `None` or empty, per the counterexample) are set aside: filtering
the original's collection to truthy-url records yields exactly the
optimized collection. -/
theorem refinement_amended (ss : List (List (Except Unit Record))) (h : chainFrom [] ss) :
    (MainCli.origPasses [] ss).filter truthyR = MainCliOptimized.optPasses [] [] 0 ss := by
  have hmain := passes_refine ss [] [] [] []
    (by rfl) (by intro v; simp) (by intro r hr; simp at hr) h
  simpa using hmain

/-- Witness for the amended C10 on a concrete append-only snapshot pair
with an overlapping record. -/
theorem refinement_amended_witness :
    chainFrom [] [[Except.ok rA], [Except.ok rA, Except.ok rB]] ∧
    (MainCli.origPasses [] [[Except.ok rA], [Except.ok rA, Except.ok rB]]).filter truthyR =
      MainCliOptimized.optPasses [] [] 0 [[Except.ok rA], [Except.ok rA, Except.ok rB]] := by
  have hch : chainFrom [] [[Except.ok rA], [Except.ok rA, Except.ok rB]] := by
    rw [chainFrom]
    refine ⟨⟨[Except.ok rA], rfl⟩, ?_⟩
    rw [chainFrom]
    exact ⟨⟨[Except.ok rB], rfl⟩, trivial⟩
  exact ⟨hch, refinement_amended _ hch⟩
